import Mathlib

/-!
Verification of the MajesticV2 Discord bot's command registration and
drift-reconciliation engine, against a shallow embedding of the source.

Embedded code (current variants, i.e. the ones the rest of the tree imports):
* `src/helpers/functions.ts` — `deepNormalise`, `findDifferences`, `logError`,
  `errorEmbed` (the variant with the `isTopLevel` parameter and the
  `Math.ceil` chunking loop, whose extra exports `findUser` / `findCategory` /
  three-argument `applyEmbedStructure` are the ones `help.ts` and `info.ts`
  import).
* `src/helpers/command.ts` — `findSlashChanges`.
* `src/handlers/command.ts` — the `ready` reconciliation loop of
  `loadCommands` (the variant that fetches current remote commands and
  builds `commandsToAdd` / `commandsToUpdate` / `commandsToDelete`).
* `src/events/guild/commandCreate.ts` — the dispatch router.

JavaScript runtime values are modelled as finite trees (`Value`).  Tree
inputs correspond to reference-unique JS values, on which the `seen`
WeakSet used for cycle breaking in `deepNormalise` never fires, so it is
not modelled.  JS numbers are modelled as integers (the command data the
engine handles is JSON over the Discord API, where `NaN`/infinities do not
occur).  Real JS objects never have duplicate keys; the embedding uses
association lists and carries explicit no-duplicate-keys hypotheses where
object key uniqueness matters.
-/

/-- JS values as finite trees: `null`, `undefined`, the primitives the
command pipeline uses, arrays, and objects as ordered key/value entries. -/
inductive Value where
  | vnull
  | vundef
  | vbool (b : Bool)
  | vnum (n : Int)
  | vstr (s : String)
  | varr (xs : List Value)
  | vobj (fs : List (String × Value))
deriving Repr

namespace Value

mutual

/-- Boolean structural equality on `Value` (deriving fails on the nested
inductive, so it is written out and proved lawful below). -/
def beq : Value → Value → Bool
  | .vnull, .vnull => true
  | .vundef, .vundef => true
  | .vbool a, .vbool b => a == b
  | .vnum a, .vnum b => a == b
  | .vstr a, .vstr b => a == b
  | .varr xs, .varr ys => beqList xs ys
  | .vobj fs, .vobj gs => beqFields fs gs
  | _, _ => false

/-- Elementwise `beq` on value lists. -/
def beqList : List Value → List Value → Bool
  | [], [] => true
  | x :: xs, y :: ys => beq x y && beqList xs ys
  | _, _ => false

/-- Entrywise `beq` on object entry lists. -/
def beqFields : List (String × Value) → List (String × Value) → Bool
  | [], [] => true
  | (k, v) :: fs, (k', v') :: gs => k == k' && beq v v' && beqFields fs gs
  | _, _ => false

end

instance : BEq Value := ⟨beq⟩

/-- JS property assignment `acc[key] = value` on an entry list: an existing
key keeps its position and gets the new value, a fresh key is appended. -/
def objSet (fs : List (String × Value)) (k : String) (v : Value) : List (String × Value) :=
  match fs with
  | [] => [(k, v)]
  | (k', v') :: rest => if k' = k then (k, v) :: rest else (k', v') :: objSet rest k v

/-- JS property read `obj[key]` on an entry list (first matching entry). -/
def fieldLookup (fs : List (String × Value)) (k : String) : Option Value :=
  match fs with
  | [] => none
  | (k', v') :: rest => if k' = k then some v' else fieldLookup rest k

/-- Keys of an entry list are pairwise distinct — always true of the entry
list of a real JS object. -/
def keysNodupB : List (String × Value) → Bool
  | [] => true
  | (k, _) :: rest => !((rest.map Prod.fst).contains k) && keysNodupB rest

mutual

/-- src/helpers/functions.ts, `deepNormalise(object, keysToKeep?, seen, isTopLevel = true)`
(the current variant, with the `isTopLevel` parameter):
`null`/`undefined` normalize to `null`; arrays map `deepNormalise` over the
elements (with `isTopLevel` `false`), drop results that are `!== null &&
!== undefined`-failing, and collapse to `null` when nothing is left
(`normalisedArray.length > 0 ? normalisedArray : null`); objects reduce
their entries (`{...object}` of a real JS object is its own entry list),
skipping a key only when `isTopLevel && keysToKeep && !keysToKeep.includes(key)`,
and assigning `acc[key] = normalisedValue` only when the normalized value
is not `null`; primitives pass through.  The `seen` WeakSet never fires on
reference-unique (tree) inputs and is not modelled. -/
def deepNormalise (v : Value) (keysToKeep : Option (List String)) (isTopLevel : Bool) : Value :=
  match v with
  | .vnull => .vnull
  | .vundef => .vnull
  | .varr xs =>
      let mapped := normaliseItems xs keysToKeep
      let filtered := mapped.filter (fun y => !(beq y .vnull) && !(beq y .vundef))
      if filtered.length > 0 then .varr filtered else .vnull
  | .vobj fs => .vobj (normaliseEntries fs keysToKeep isTopLevel [])
  | .vbool b => .vbool b
  | .vnum n => .vnum n
  | .vstr s => .vstr s

/-- The array branch's `object.map(item => deepNormalise(item, keysToKeep, seen, false))`. -/
def normaliseItems (xs : List Value) (keysToKeep : Option (List String)) : List Value :=
  match xs with
  | [] => []
  | x :: rest => deepNormalise x keysToKeep false :: normaliseItems rest keysToKeep

/-- The object branch's `Object.entries(plainObject).reduce(...)`, with the
accumulator made explicit.  A JS `keysToKeep` of `[]` is truthy, hence
`Option (List String)` with `some []` filtering every key out. -/
def normaliseEntries (fs : List (String × Value)) (keysToKeep : Option (List String))
    (isTopLevel : Bool) (acc : List (String × Value)) : List (String × Value) :=
  match fs with
  | [] => acc
  | (k, v) :: rest =>
      if isTopLevel && (match keysToKeep with | some l => !(l.contains k) | none => false) then
        normaliseEntries rest keysToKeep isTopLevel acc
      else
        let nv := deepNormalise v keysToKeep false
        normaliseEntries rest keysToKeep isTopLevel
          (if !(beq nv .vnull) then objSet acc k nv else acc)

end

/-- The JS read `existingObject?.[key]` as it occurs in `findDifferences`:
a present object entry yields its value, anything else yields `undefined`.
(Exotic property reads such as `length` on arrays or index access on
strings cannot occur on the normalizer outputs this engine compares.) -/
def jsIndex (v : Value) (k : String) : Value :=
  match v with
  | .vobj fs => (fieldLookup fs k).getD .vundef
  | _ => .vundef

mutual

/-- src/helpers/functions.ts, `findDifferences(newObject, existingObject)`:
non-objects (including `null`) compare by strict equality and report the
candidate when it differs; arrays are returned wholesale when the baseline
is not an array of the same length and diffed positionwise otherwise,
yielding `null` when every position is unchanged; objects diff each entry
against `existingObject?.[key]` and collect the non-`null` diffs, yielding
`null` when the collection is empty. -/
def findDifferences (newObject : Value) (existingObject : Value) : Value :=
  match newObject with
  | .varr xs =>
      match existingObject with
      | .varr es =>
          if xs.length = es.length then
            let differences := diffItems xs es
            if differences.any (fun d => !(beq d .vnull)) then .varr differences else .vnull
          else .varr xs
      | _ => .varr xs
  | .vobj fs =>
      let diffObject := diffEntries fs existingObject
      if diffObject.length > 0 then .vobj diffObject else .vnull
  | prim => if beq prim existingObject then .vnull else prim

/-- The array branch's `newObject.map((item, index) => findDifferences(item,
existingObject[index]))`; an out-of-range read (unreachable under the equal
length guard) yields `undefined`. -/
def diffItems (xs : List Value) (es : List Value) : List Value :=
  match xs, es with
  | [], _ => []
  | x :: rest, [] => findDifferences x .vundef :: diffItems rest []
  | x :: rest, e :: erest => findDifferences x e :: diffItems rest erest

/-- The object branch's `for (const key of Object.keys(newObject))` loop
collecting keys whose diff is non-`null`.  Real JS objects have distinct
keys, so iterating the entries with their stored values coincides with
iterating `Object.keys` and reading `newObject[key]`. -/
def diffEntries (fs : List (String × Value)) (existingObject : Value) :
    List (String × Value) :=
  match fs with
  | [] => []
  | (k, v) :: rest =>
      let d := findDifferences v (jsIndex existingObject k)
      (if !(beq d .vnull) then [(k, d)] else []) ++ diffEntries rest existingObject

end

/-- JS `Object.keys` for the values `findSlashChanges` feeds it (the
normalized builder JSON, always an object; array/primitive inputs cannot
occur there and are given their degenerate key lists). -/
def keysOf : Value → List String
  | .vobj fs => fs.map Prod.fst
  | .varr xs => (List.range xs.length).map toString
  | _ => []

/-- src/helpers/command.ts, `findSlashChanges(newCommand, existingCommand)`:
normalize the new command (builder JSON via its `toJSON`), normalize the
existing command restricted to the new side's top-level key set, and diff.
Both command objects are taken as their (plain) `Value` form. -/
def findSlashChanges (newCommand : Value) (existingCommand : Value) : Value :=
  let normalisedNew := deepNormalise newCommand none true
  let normalisedExisting := deepNormalise existingCommand (some (keysOf normalisedNew)) true
  let differences := findDifferences normalisedNew normalisedExisting
  differences


mutual

/-- A value is JS-representable (well-formed): every object along the tree
has pairwise-distinct keys.  Real JS objects always satisfy this; it is
the hypothesis under which entry-list iteration and property lookup agree. -/
def wfB : Value → Bool
  | .varr xs => wfItemsB xs
  | .vobj fs => keysNodupB fs && wfFieldsB fs
  | _ => true

/-- All members of a value list are well-formed. -/
def wfItemsB : List Value → Bool
  | [] => true
  | x :: xs => wfB x && wfItemsB xs

/-- All entry values of an object entry list are well-formed. -/
def wfFieldsB : List (String × Value) → Bool
  | [] => true
  | (_, v) :: fs => wfB v && wfFieldsB fs

end

mutual

/-- A value is in normal form: it is `null`, a primitive, a non-empty
array with no `null` (and no `undefined`) element, or an object with no
`null` (and no `undefined`) field value, recursively; `undefined` itself
is not a normal form. -/
def nfB : Value → Bool
  | .vnull => true
  | .vundef => false
  | .varr xs => !(xs.isEmpty) && nfItemsB xs
  | .vobj fs => nfFieldsB fs
  | _ => true

/-- Every member is non-`null` and in normal form. -/
def nfItemsB : List Value → Bool
  | [] => true
  | x :: xs => !(beq x .vnull) && nfB x && nfItemsB xs

/-- Every entry value is non-`null` and in normal form. -/
def nfFieldsB : List (String × Value) → Bool
  | [] => true
  | (_, v) :: fs => !(beq v .vnull) && nfB v && nfFieldsB fs

end

end Value

namespace Reconcile

open Value

/-- A locally built slash command target: the entry of `slashCommandsMap`
in src/handlers/command.ts `loadCommands` — the builder's `name` together
with its JSON body (`Value`). -/
structure SlashCmd where
  name : String
  body : Value
deriving Repr, BEq

/-- A fetched remote command (`ApplicationCommand`): its `name` and the
API object the differ sees. -/
structure RemoteCmd where
  name : String
  body : Value
deriving Repr, BEq

/-- The reconciliation plan built by the `ready` handler:
`commandsToAdd`, `commandsToUpdate` (existing command, new command,
differences), and `commandsToDelete`. -/
structure Plan where
  toAdd : List SlashCmd
  toUpdate : List (RemoteCmd × SlashCmd × Value)
  toDelete : List RemoteCmd
deriving Repr

/-- State threaded through the `for (const [, slashCommand] of
slashCommandsMap.entries())` loop of src/handlers/command.ts (lines
134-154): the growing `commandsToAdd` and `commandsToUpdate`, plus
`commandTracker`. -/
structure LoopState where
  toAdd : List SlashCmd
  toUpdate : List (RemoteCmd × SlashCmd × Value)
  tracker : List RemoteCmd
deriving Repr

/-- One iteration of the classification loop.
`currentCommands.filter(command => command.name === slashCommand.name)`
selects the matching remotes; `commandTracker.concat(existingCommands)`
calls discord.js `Collection.concat`, which returns a fresh collection —
the statement discards the result, so the tracker is unchanged; an empty
match set pushes onto `commandsToAdd`, otherwise each match with a
non-`null` `findSlashChanges` result is pushed onto `commandsToUpdate`. -/
def loopStep (remotes : List RemoteCmd) (s : LoopState) (slashCommand : SlashCmd) :
    LoopState :=
  let existingCommands := remotes.filter (fun command => command.name = slashCommand.name)
  let tracker := s.tracker
  if existingCommands.length = 0 then
    { s with toAdd := s.toAdd ++ [slashCommand], tracker := tracker }
  else
    { s with
        toUpdate := s.toUpdate ++ existingCommands.filterMap (fun existingCommand =>
          let differences := findSlashChanges slashCommand.body existingCommand.body
          if !(Value.beq differences .vnull) then
            some (existingCommand, slashCommand, differences)
          else none),
        tracker := tracker }

/-- src/handlers/command.ts `ready` handler, lines 102-157, as a function
of the locally built targets and the fetched current remote commands
(global or per-guild fetching upstream of the classification is abstracted
into the `remotes` argument).  `commandsToDelete` starts as an empty
collection (line 103); the two mode-dependent
`commandsToDelete.concat(...)` statements (lines 125 and 131) and the
final `commandsToDelete.concat(commandTracker.subtract(currentCommands))`
(line 157) all discard the fresh collection `Collection.concat` returns,
so the delete set the handler then iterates is the empty one. -/
def reconcile (locals : List SlashCmd) (remotes : List RemoteCmd) : Plan :=
  let commandsToDelete : List RemoteCmd := []
  let final := locals.foldl (loopStep remotes) ⟨[], [], []⟩
  let _discardedConcat := commandsToDelete ++ (final.tracker.filter
    (fun t => !(remotes.contains t)))
  { toAdd := final.toAdd, toUpdate := final.toUpdate, toDelete := commandsToDelete }

end Reconcile

namespace Dispatch

/-- JS strings for the router are modelled as their character sequences. -/
abbrev JStr := List Char

/-- JS `toLowerCase` on the ASCII names and prefixes the router handles. -/
def jsToLower (s : JStr) : JStr := s.map Char.toLower

/-- The first whitespace-delimited token:
`interaction.content.split(" ")[0]` (the characters before the first
space). -/
def firstToken (content : JStr) : JStr := content.takeWhile (fun c => c ≠ ' ')

/-- The registries the router consults: `client.commands` (names) and
`client.aliases` (alias name to command name), plus the bot user id for
the mention alternative of the prefix regex. -/
structure Registry where
  botId : JStr
  commands : List JStr
  aliases : List (JStr × JStr)

/-- The anchored regex `^(<@!?${client.user.id}>|${escapeString(prefix)})`
tested on a string `s`: `s` starts with a direct mention of the bot or
with the (regex-escaped, hence literal) resolved prefix. -/
def pfxRegexTest (botId : JStr) (pfx : JStr) (s : JStr) : Bool :=
  (('<' :: '@' :: botId ++ ['>']).isPrefixOf s) ||
  (('<' :: '@' :: '!' :: botId ++ ['>']).isPrefixOf s) ||
  (pfx.isPrefixOf s)

/-- src/events/guild/commandCreate.ts, message branch (lines 23-44), up to
the decision which command (if any) to execute.  `pfx` is the resolved
guild prefix (`guildData?.prefix || config.defaultPrefix`).  Lines 28-30
take the first token, strip `prefix.length` characters off it for the
command name, and compute `givenPrefix` (which no later line reads);
lines 32-33 lower-case the prefix and the command name; lines 36-40 look
the name up directly and then through the alias registry; line 44 returns
unless a command was found and `prefixRegex.test(prefix)` holds — the
regex is tested on the resolved prefix itself, not on the message. -/
def dispatchMessage (reg : Registry) (pfx : JStr) (content : JStr) : Option JStr :=
  let content0 := firstToken content
  let commandName0 := content0.drop pfx.length
  let _givenPrefix0 := jsToLower (content0.take pfx.length)
  let pfxLower := jsToLower pfx
  let commandName := jsToLower commandName0
  let command := if reg.commands.contains commandName then some commandName else none
  let aliasTarget := reg.aliases.lookup commandName
  let command := match command, aliasTarget with
    | none, some a => if reg.commands.contains a then some a else none
    | c, _ => c
  if command.isSome && pfxRegexTest reg.botId pfxLower pfxLower then command
  else none

/-- A thrown JS failure, identified by its message. -/
structure JsError where
  msg : String
deriving Repr, DecidableEq

/-- The embed produced by src/helpers/functions.ts `errorEmbed(message,
prefix)`: title `Uh oh! :x:`, the given description, and a
`Prefix <prefix>` footer (colour, icon and timestamp come from config and
the clock and are not modelled). -/
structure Embed where
  title : String
  description : String
  footerText : String
deriving Repr, DecidableEq

/-- src/helpers/functions.ts, `errorEmbed`. -/
def errorEmbed (message : String) (pfx : String) : Embed :=
  { title := "Uh oh! :x:", description := message,
    footerText := "Prefix " ++ pfx }

/-- What the router's `try` block does once a command is resolved (lines
48-62): run the extractor to build `optionData`, then call
`command.execute(client, interaction, prefix, config, optionData)`; either
call may throw. -/
def tryBlock (extract : Except JsError Value) (execute : Value → Except JsError Unit) :
    Except JsError Unit := do
  let optionData ← extract
  execute optionData

/-- The observable outcome of the router's guarded execution. -/
inductive Outcome where
  | executed
  | errorHandled (logged : JsError) (reply : Embed)
deriving Repr, DecidableEq

/-- src/events/guild/commandCreate.ts lines 48-69: the `try`/`catch`
around extraction and execution.  A throw is caught; the catch logs it via
`logError` and replies with `errorEmbed("Unexpected Error", prefix)`.
The result type is `Except` so that an uncaught propagation out of the
router would be visible as an `Except.error`. -/
def routerRun (extract : Except JsError Value) (execute : Value → Except JsError Unit)
    (pfx : String) : Except JsError Outcome :=
  match tryBlock extract execute with
  | .ok _ => .ok .executed
  | .error e => .ok (.errorHandled e (errorEmbed "Unexpected Error" pfx))

end Dispatch

namespace ErrorLog

open Dispatch (JStr)

/-- The fixed `SIZE_RESTRICTION` of src/helpers/functions.ts `logError`. -/
def SIZE_RESTRICTION : Nat := 1990

/-- The chunk count `Math.ceil(error.length / SIZE_RESTRICTION)`. -/
def arrayLength (len : Nat) : Nat := (len + (SIZE_RESTRICTION - 1)) / SIZE_RESTRICTION

/-- The `splitMessages` array: for `i` below the chunk count,
`error.substring(i * SIZE_RESTRICTION, (i + 1) * SIZE_RESTRICTION)`
(JS `substring` clamps to the string length). -/
def splitMessages (err : JStr) : List JStr :=
  (List.range (arrayLength err.length)).map
    (fun i => (err.drop (i * SIZE_RESTRICTION)).take SIZE_RESTRICTION)

/-- The code fence each chunk is posted in:
a triple-backtick line before and after the chunk. -/
def fencedMessage (m : JStr) : JStr := "```\n".toList ++ m ++ "\n```".toList

/-- Where the serialized error ends up. -/
inductive LogOutcome where
  | sent (messages : List JStr)
  | console (err : JStr)
deriving Repr, DecidableEq

/-- src/helpers/functions.ts, `logError` (current variant, lines 197-229):
the error is already serialized to text (`error.stack || error.message`
upstream); it is cut into `Math.ceil(length / 1990)` consecutive
substrings; when the configured channel exists and is sendable each chunk
is sent as its own fenced message, otherwise (the `throw` in the `else`
reaching the `catch`) the error goes to the console. -/
def logError (channelSendable : Bool) (err : JStr) : LogOutcome :=
  if channelSendable then .sent ((splitMessages err).map fencedMessage)
  else .console err

end ErrorLog

namespace Value

mutual

theorem eq_of_beq : ∀ {a b : Value}, beq a b = true → a = b
  | .vnull, .vnull, _ => rfl
  | .vundef, .vundef, _ => rfl
  | .vbool a, .vbool b, h => by
      simp only [beq, beq_iff_eq] at h; exact congrArg Value.vbool h
  | .vnum a, .vnum b, h => by
      simp only [beq, beq_iff_eq] at h; exact congrArg Value.vnum h
  | .vstr a, .vstr b, h => by
      simp only [beq, beq_iff_eq] at h; exact congrArg Value.vstr h
  | .varr xs, .varr ys, h => by
      simp only [beq] at h; exact congrArg Value.varr (eqList_of_beq h)
  | .vobj fs, .vobj gs, h => by
      simp only [beq] at h; exact congrArg Value.vobj (eqFields_of_beq h)

theorem eqList_of_beq : ∀ {xs ys : List Value}, beqList xs ys = true → xs = ys
  | [], [], _ => rfl
  | x :: xs, y :: ys, h => by
      simp only [beqList, Bool.and_eq_true] at h
      rw [eq_of_beq h.1, eqList_of_beq h.2]

theorem eqFields_of_beq : ∀ {fs gs : List (String × Value)}, beqFields fs gs = true → fs = gs
  | [], [], _ => rfl
  | (k, v) :: fs, (k', v') :: gs, h => by
      simp only [beqFields, Bool.and_eq_true, beq_iff_eq] at h
      rw [h.1.1, eq_of_beq h.1.2, eqFields_of_beq h.2]

end

mutual

theorem beq_refl : ∀ (a : Value), beq a a = true
  | .vnull => rfl
  | .vundef => rfl
  | .vbool a => by simp [beq]
  | .vnum a => by simp [beq]
  | .vstr a => by simp [beq]
  | .varr xs => by simp only [beq]; exact beqList_refl xs
  | .vobj fs => by simp only [beq]; exact beqFields_refl fs

theorem beqList_refl : ∀ (xs : List Value), beqList xs xs = true
  | [] => rfl
  | x :: xs => by
      simp only [beqList, Bool.and_eq_true]
      exact ⟨beq_refl x, beqList_refl xs⟩

theorem beqFields_refl : ∀ (fs : List (String × Value)), beqFields fs fs = true
  | [] => rfl
  | (k, v) :: fs => by
      simp only [beqFields, Bool.and_eq_true, beq_iff_eq]
      exact ⟨⟨trivial, beq_refl v⟩, beqFields_refl fs⟩

end

@[simp]
theorem beq_true_iff (a b : Value) : beq a b = true ↔ a = b :=
  ⟨eq_of_beq, fun h => h ▸ beq_refl a⟩

@[simp]
theorem beq_false_iff (a b : Value) : beq a b = false ↔ a ≠ b := by
  rw [← Bool.not_eq_true, beq_true_iff]

theorem beq_self (a : Value) : beq a a = true := beq_refl a

theorem normaliseItems_eq_map (xs : List Value) (ks : Option (List String)) :
    normaliseItems xs ks = xs.map (fun x => deepNormalise x ks false) := by
  induction xs with
  | nil => rfl
  | cons x rest ih => simp [normaliseItems, ih]

theorem deepNormalise_ne_vundef (v : Value) (ks : Option (List String)) (top : Bool) :
    deepNormalise v ks top ≠ .vundef := by
  cases v with
  | varr xs => simp only [deepNormalise]; split <;> simp
  | _ => simp [deepNormalise]

theorem deepNormalise_varr_eq (xs : List Value) (ks : Option (List String)) (top : Bool) :
    deepNormalise (.varr xs) ks top =
      (if ((xs.map fun x => deepNormalise x ks false).filter
            fun y => !(beq y .vnull)).length > 0
       then .varr ((xs.map fun x => deepNormalise x ks false).filter
            fun y => !(beq y .vnull))
       else .vnull) := by
  have hfilter :
      (normaliseItems xs ks).filter (fun y => !(beq y .vnull) && !(beq y .vundef))
        = (xs.map fun x => deepNormalise x ks false).filter (fun y => !(beq y .vnull)) := by
    rw [normaliseItems_eq_map]
    refine List.filter_congr ?_
    intro y hy
    obtain ⟨x, _, rfl⟩ := List.mem_map.mp hy
    have hund : beq (deepNormalise x ks false) .vundef = false :=
      (beq_false_iff _ _).mpr (deepNormalise_ne_vundef x ks false)
    simp [hund]
  simp only [deepNormalise, hfilter]

end Value

open Value in
/-- C4 counterexample: the claim says `normalize({})` is `null`, but
`deepNormalise` of the empty object is the empty object, which is not
`null`. -/
theorem deepNormalise_empty_object_not_null :
    deepNormalise (.vobj []) none true = .vobj [] ∧ Value.vobj [] ≠ Value.vnull :=
  ⟨rfl, by simp⟩

open Value in
/-- C4 (amended): `normalize([])` and `normalize([null, undefined])` are
`null` — arrays that are empty after recursive normalization collapse to
`null` — but an object input always normalizes to an object (so
`normalize({})` is `{}`, never `null`). -/
theorem deepNormalise_emptiness_collapse :
    deepNormalise (.varr []) none true = .vnull
  ∧ deepNormalise (.varr [.vnull, .vundef]) none true = .vnull
  ∧ ∀ (ks : Option (List String)) (top : Bool) (fs : List (String × Value)),
      ∃ gs, deepNormalise (.vobj fs) ks top = .vobj gs :=
  ⟨rfl, rfl, fun ks top fs => ⟨normaliseEntries fs ks top [], rfl⟩⟩

open Value in
/-- C6: an array normalizes to `null` exactly when every element
normalizes to `null`, and otherwise the result is the list of normalized
elements with exactly the `null` ones dropped (so elements normalizing to
`false`, `0` or `""` are retained, in their original relative order). -/
theorem deepNormalise_array_drops_exactly_nulls (ks : Option (List String)) (top : Bool)
    (xs : List Value) :
    (deepNormalise (.varr xs) ks top = .vnull ↔
        ∀ x ∈ xs, deepNormalise x ks false = .vnull)
  ∧ (∀ ys, deepNormalise (.varr xs) ks top = .varr ys →
        ys = (xs.map fun x => deepNormalise x ks false).filter fun y => !(beq y .vnull)) := by
  rw [deepNormalise_varr_eq]
  have hchar :
      ((xs.map fun x => deepNormalise x ks false).filter fun y => !(beq y .vnull)) = []
        ↔ ∀ x ∈ xs, deepNormalise x ks false = .vnull := by
    rw [List.filter_eq_nil_iff]
    constructor
    · intro h x hx
      have := h _ (List.mem_map.mpr ⟨x, hx, rfl⟩)
      simpa using this
    · intro h y hy
      obtain ⟨x, hx, rfl⟩ := List.mem_map.mp hy
      simp [h x hx, beq_self]
  constructor
  · split
    · rename_i hlen
      have hne : ((xs.map fun x => deepNormalise x ks false).filter
          fun y => !(beq y .vnull)) ≠ [] := by
        intro he; rw [he] at hlen; simp at hlen
      exact iff_of_false (by simp) (fun h => hne (hchar.mpr h))
    · rename_i hlen
      have hz : ((xs.map fun x => deepNormalise x ks false).filter
          fun y => !(beq y .vnull)).length = 0 := by omega
      exact iff_of_true rfl (hchar.mp (List.length_eq_zero.mp hz))
  · intro ys hys
    split at hys
    · exact (Value.varr.injEq _ _ ▸ hys).symm
    · exact absurd hys (by simp)

open Value in
/-- C6 witness: on `[false, null, 0, ""]` the normalizer keeps `false`,
`0` and `""` (in order) and drops only the `null`. -/
theorem deepNormalise_array_drops_exactly_nulls_witness :
    (([Value.vbool false, Value.vnull, Value.vnum 0, Value.vstr ""].map
        fun x => deepNormalise x none false).filter fun y => !(beq y .vnull))
      = [Value.vbool false, Value.vnum 0, Value.vstr ""] :=
  ((deepNormalise_array_drops_exactly_nulls none true
      [.vbool false, .vnull, .vnum 0, .vstr ""]).2
    [.vbool false, .vnum 0, .vstr ""] rfl).symm

namespace Value

mutual

theorem norm_ks_indep : ∀ (v : Value) (ks : Option (List String)),
    deepNormalise v ks false = deepNormalise v none false
  | .vnull, _ => rfl
  | .vundef, _ => rfl
  | .vbool _, _ => rfl
  | .vnum _, _ => rfl
  | .vstr _, _ => rfl
  | .varr xs, ks => by simp only [deepNormalise, items_ks_indep xs ks]
  | .vobj fs, ks => by simp only [deepNormalise, entries_ks_indep fs ks []]

theorem items_ks_indep : ∀ (xs : List Value) (ks : Option (List String)),
    normaliseItems xs ks = normaliseItems xs none
  | [], _ => rfl
  | x :: rest, ks => by
      simp only [normaliseItems, norm_ks_indep x ks, items_ks_indep rest ks]

theorem entries_ks_indep : ∀ (fs : List (String × Value)) (ks : Option (List String))
    (acc : List (String × Value)),
    normaliseEntries fs ks false acc = normaliseEntries fs none false acc
  | [], _, _ => rfl
  | (k, v) :: rest, ks, acc => by
      simp only [normaliseEntries, Bool.false_and, Bool.false_eq_true, if_false,
        norm_ks_indep v ks, entries_ks_indep rest ks]

end

theorem objSet_of_not_mem (fs : List (String × Value)) (k : String) (v : Value)
    (h : k ∉ fs.map Prod.fst) : objSet fs k v = fs ++ [(k, v)] := by
  induction fs with
  | nil => rfl
  | cons p rest ih =>
      obtain ⟨k', v'⟩ := p
      simp only [List.map_cons, List.mem_cons] at h
      push_neg at h
      have hne : ¬ (k' = k) := fun he => h.1 he.symm
      simp only [objSet, if_neg hne, List.cons_append, ih h.2]

theorem keysNodupB_iff (fs : List (String × Value)) :
    keysNodupB fs = true ↔ (fs.map Prod.fst).Nodup := by
  induction fs with
  | nil => simp [keysNodupB]
  | cons p rest ih =>
      obtain ⟨k, v⟩ := p
      simp [keysNodupB, ih, List.elem_iff]

theorem normaliseEntries_formula : ∀ (fs : List (String × Value))
    (ks : Option (List String)) (acc : List (String × Value)),
    ((acc ++ fs).map Prod.fst).Nodup →
    normaliseEntries fs ks false acc
      = acc ++ ((fs.map fun p => (p.1, deepNormalise p.2 none false)).filter
          fun p => !(beq p.2 .vnull))
  | [], ks, acc, _ => by simp [normaliseEntries]
  | (k, v) :: rest, ks, acc, h => by
      have hmaps : (acc ++ (k, v) :: rest).map Prod.fst
          = acc.map Prod.fst ++ k :: rest.map Prod.fst := by simp
      rw [hmaps] at h
      have hknotmem : k ∉ acc.map Prod.fst := by
        intro hk
        exact (List.nodup_append.mp h).2.2 hk (List.mem_cons_self k _)
      simp only [normaliseEntries, Bool.false_and, Bool.false_eq_true, if_false,
        norm_ks_indep v ks, List.map_cons, List.filter_cons]
      by_cases hnv : deepNormalise v none false = .vnull
      · have hbt : (!(beq (deepNormalise v none false) .vnull)) = false := by
          simp [hnv, beq_self]
        rw [hbt]
        simp only [Bool.false_eq_true, if_false]
        have hsub : List.Sublist (acc.map Prod.fst ++ rest.map Prod.fst)
            (acc.map Prod.fst ++ k :: rest.map Prod.fst) :=
          List.Sublist.append_left (List.sublist_cons_self k _) _
        have hrest : ((acc ++ rest).map Prod.fst).Nodup := by
          have := h.sublist hsub
          simpa using this
        exact normaliseEntries_formula rest ks acc hrest
      · have hbt : (!(beq (deepNormalise v none false) .vnull)) = true := by
          simp [(beq_false_iff _ _).mpr hnv]
        rw [hbt]
        simp only [eq_self_iff_true, if_true]
        rw [objSet_of_not_mem acc k _ hknotmem]
        have hrest : (((acc ++ [(k, deepNormalise v none false)]) ++ rest).map
            Prod.fst).Nodup := by
          simpa using h
        rw [normaliseEntries_formula rest ks _ hrest]
        simp

end Value

open Value in
/-- C5: the `keysToKeep` filter of `deepNormalise` acts only at the
top-level call.  Below top level the result is independent of the supplied
filter, and the entries of a nested (non-top-level) object are kept or
dropped solely according to whether their normalized value is `null`. -/
theorem deepNormalise_key_filter_top_level_only :
    (∀ (v : Value) (ks : List String),
        deepNormalise v (some ks) false = deepNormalise v none false)
  ∧ (∀ (ks : Option (List String)) (fs : List (String × Value)),
        keysNodupB fs = true →
        deepNormalise (.vobj fs) ks false
          = .vobj ((fs.map fun p => (p.1, deepNormalise p.2 none false)).filter
              fun p => !(beq p.2 .vnull))) := by
  refine ⟨fun v ks => norm_ks_indep v (some ks), fun ks fs h => ?_⟩
  simp only [deepNormalise]
  exact congrArg Value.vobj
    (normaliseEntries_formula fs ks [] (by simpa using (keysNodupB_iff fs).mp h))

open Value in
/-- C5 witness: normalizing a nested object under the top-level filter
`["a"]` keeps the nested key `c`-stripped object under `b` even though `b`
and `c` are not in the filter (the call below is non-top-level, so the
filter never applies). -/
theorem deepNormalise_key_filter_top_level_only_witness :
    deepNormalise (.vobj [("a", .vnum 1), ("b", .vobj [("c", .vnull)])]) (some ["a"]) false
      = .vobj [("a", .vnum 1), ("b", .vobj [])] :=
  (deepNormalise_key_filter_top_level_only.2 (some ["a"])
    [("a", .vnum 1), ("b", .vobj [("c", .vnull)])] rfl).trans rfl

namespace Value

theorem fieldLookup_of_nodup : ∀ (fs : List (String × Value)) (k : String) (v : Value),
    keysNodupB fs = true → (k, v) ∈ fs → fieldLookup fs k = some v
  | [], k, v, _, hm => absurd hm (by simp)
  | (k', v') :: rest, k, v, hn, hm => by
      simp only [keysNodupB, Bool.and_eq_true] at hn
      rcases List.mem_cons.mp hm with he | hrest
      · injection he with hk hv
        subst hk; subst hv
        simp [fieldLookup]
      · have hmemk : k ∈ rest.map Prod.fst := List.mem_map.mpr ⟨(k, v), hrest, rfl⟩
        have hne : ¬ (k' = k) := by
          intro he
          rw [← List.elem_iff] at hmemk
          rw [he] at hn
          simp [List.contains] at hn
          exact absurd hmemk (by simp [hn.1])
        simp only [fieldLookup, if_neg hne]
        exact fieldLookup_of_nodup rest k v hn.2 hrest

theorem wfItemsB_iff (xs : List Value) :
    wfItemsB xs = true ↔ ∀ x ∈ xs, wfB x = true := by
  induction xs with
  | nil => simp [wfItemsB]
  | cons x rest ih => simp [wfItemsB, ih, Bool.and_eq_true]

theorem wfFieldsB_iff (fs : List (String × Value)) :
    wfFieldsB fs = true ↔ ∀ p ∈ fs, wfB p.2 = true := by
  induction fs with
  | nil => simp [wfFieldsB]
  | cons p rest ih =>
      obtain ⟨k, v⟩ := p
      simp [wfFieldsB, ih, Bool.and_eq_true]

theorem nfItemsB_iff (xs : List Value) :
    nfItemsB xs = true ↔ ∀ x ∈ xs, x ≠ .vnull ∧ nfB x = true := by
  induction xs with
  | nil => simp [nfItemsB]
  | cons x rest ih => simp [nfItemsB, ih, Bool.and_eq_true, and_assoc]

theorem nfFieldsB_iff (fs : List (String × Value)) :
    nfFieldsB fs = true ↔ ∀ p ∈ fs, p.2 ≠ .vnull ∧ nfB p.2 = true := by
  induction fs with
  | nil => simp [nfFieldsB]
  | cons p rest ih =>
      obtain ⟨k, v⟩ := p
      simp [nfFieldsB, ih, Bool.and_eq_true, and_assoc]

theorem objSet_mem : ∀ (fs : List (String × Value)) (k : String) (v : Value)
    (p : String × Value), p ∈ objSet fs k v → p = (k, v) ∨ p ∈ fs
  | [], k, v, p, hm => by
      simp only [objSet, List.mem_singleton] at hm
      exact Or.inl hm
  | (k', v') :: rest, k, v, p, hm => by
      by_cases he : k' = k
      · simp only [objSet, if_pos he] at hm
        rcases List.mem_cons.mp hm with h1 | h2
        · exact Or.inl h1
        · exact Or.inr (List.mem_cons_of_mem _ h2)
      · simp only [objSet, if_neg he] at hm
        rcases List.mem_cons.mp hm with h1 | h2
        · exact Or.inr (h1 ▸ List.mem_cons_self _ _)
        · rcases objSet_mem rest k v p h2 with h3 | h4
          · exact Or.inl h3
          · exact Or.inr (List.mem_cons_of_mem _ h4)

theorem keys_objSet : ∀ (fs : List (String × Value)) (k : String) (v : Value),
    (objSet fs k v).map Prod.fst
      = (if k ∈ fs.map Prod.fst then fs.map Prod.fst else fs.map Prod.fst ++ [k])
  | [], k, v => by simp [objSet]
  | (k', v') :: rest, k, v => by
      by_cases he : k' = k
      · simp [objSet, if_pos he, he]
      · have hrec := keys_objSet rest k v
        have hne2 : ¬ (k = k') := fun hx => he hx.symm
        by_cases hm : k ∈ rest.map Prod.fst
        · simp [objSet, if_neg he, hrec, hm, hne2, List.mem_cons]
        · simp [objSet, if_neg he, hrec, hm, hne2, List.mem_cons]

theorem keysNodupB_objSet (fs : List (String × Value)) (k : String) (v : Value)
    (h : keysNodupB fs = true) : keysNodupB (objSet fs k v) = true := by
  rw [keysNodupB_iff] at h ⊢
  rw [keys_objSet]
  split
  · exact h
  · rename_i hnm
    refine List.nodup_append.mpr ⟨h, by simp, ?_⟩
    intro a ha hak
    simp only [List.mem_singleton] at hak
    exact hnm (hak ▸ ha)

theorem wfFieldsB_objSet (fs : List (String × Value)) (k : String) (v : Value)
    (hf : wfFieldsB fs = true) (hv : wfB v = true) :
    wfFieldsB (objSet fs k v) = true := by
  rw [wfFieldsB_iff] at hf ⊢
  intro p hp
  rcases objSet_mem fs k v p hp with h1 | h2
  · simpa [h1]
  · exact hf p h2

theorem nfFieldsB_objSet (fs : List (String × Value)) (k : String) (v : Value)
    (hf : nfFieldsB fs = true) (hvn : v ≠ .vnull) (hv : nfB v = true) :
    nfFieldsB (objSet fs k v) = true := by
  rw [nfFieldsB_iff] at hf ⊢
  intro p hp
  rcases objSet_mem fs k v p hp with h1 | h2
  · simpa [h1] using ⟨hvn, hv⟩
  · exact hf p h2

end Value

namespace Value

mutual

theorem diff_refl : ∀ (x : Value), wfB x = true → findDifferences x x = .vnull
  | .vnull, _ => rfl
  | .vundef, _ => rfl
  | .vbool b, _ => by simp [findDifferences, beq_self]
  | .vnum n, _ => by simp [findDifferences, beq_self]
  | .vstr s, _ => by simp [findDifferences, beq_self]
  | .varr xs, h => by
      have hall : ∀ d ∈ diffItems xs xs, d = .vnull :=
        diffItems_refl xs (by simpa [wfB] using h)
      have hany : (diffItems xs xs).any (fun d => !(beq d .vnull)) = false := by
        rw [List.any_eq_false]
        intro d hd
        simp [hall d hd, beq_self]
      simp [findDifferences, hany]
  | .vobj fs, h => by
      simp only [wfB, Bool.and_eq_true] at h
      have hprem : ∀ p ∈ fs, fieldLookup fs p.1 = some p.2 ∧ wfB p.2 = true := by
        intro p hp
        exact ⟨fieldLookup_of_nodup fs p.1 p.2 h.1 hp,
          (wfFieldsB_iff fs).mp h.2 p hp⟩
      have hde : diffEntries fs (.vobj fs) = [] := diffEntries_refl fs fs hprem
      simp [findDifferences, hde]

theorem diffItems_refl : ∀ (xs : List Value), wfItemsB xs = true →
    ∀ d ∈ diffItems xs xs, d = .vnull
  | [], _, d, hd => absurd hd (by simp [diffItems])
  | x :: rest, h, d, hd => by
      simp only [wfItemsB, Bool.and_eq_true] at h
      simp only [diffItems, List.mem_cons] at hd
      rcases hd with h1 | h2
      · exact h1 ▸ diff_refl x h.1
      · exact diffItems_refl rest h.2 d h2

theorem diffEntries_refl : ∀ (gs fs : List (String × Value)),
    (∀ p ∈ gs, fieldLookup fs p.1 = some p.2 ∧ wfB p.2 = true) →
    diffEntries gs (.vobj fs) = []
  | [], _, _ => rfl
  | (k, v) :: gs, fs, h => by
      obtain ⟨hlk, hwf⟩ := h (k, v) (List.mem_cons_self _ _)
      have hidx : jsIndex (.vobj fs) k = v := by simp [jsIndex, hlk]
      have hd : findDifferences v (jsIndex (.vobj fs) k) = .vnull :=
        hidx ▸ diff_refl v hwf
      simp only [diffEntries, hd, beq_self, Bool.not_true, Bool.false_eq_true,
        if_false, List.nil_append]
      exact diffEntries_refl gs fs (fun p hp => h p (List.mem_cons_of_mem _ hp))

end

end Value

open Value in
/-- C7: the difference engine is reflexive — for every JS-representable
value (objects have pairwise-distinct keys, which every real JS value
satisfies), diffing a value against itself reports no change. -/
theorem findDifferences_refl (x : Value) (h : wfB x = true) :
    findDifferences x x = .vnull :=
  diff_refl x h

open Value in
/-- C7 witness: reflexivity at a concrete mixed object. -/
theorem findDifferences_refl_witness :
    findDifferences
        (.vobj [("a", .vnum 1), ("b", .varr [.vstr "c", .vbool false])])
        (.vobj [("a", .vnum 1), ("b", .varr [.vstr "c", .vbool false])])
      = .vnull :=
  findDifferences_refl (.vobj [("a", .vnum 1), ("b", .varr [.vstr "c", .vbool false])]) rfl

namespace Value

mutual

theorem wf_norm : ∀ (v : Value) (ks : Option (List String)) (top : Bool),
    wfB (deepNormalise v ks top) = true
  | .vnull, _, _ => rfl
  | .vundef, _, _ => rfl
  | .vbool _, _, _ => rfl
  | .vnum _, _, _ => rfl
  | .vstr _, _, _ => rfl
  | .varr xs, ks, top => by
      simp only [deepNormalise]
      split
      · have hmap : wfItemsB (normaliseItems xs ks) = true := wfItems_norm xs ks
        simp only [wfB]
        rw [wfItemsB_iff] at hmap ⊢
        intro y hy
        exact hmap y (List.mem_of_mem_filter hy)
      · rfl
  | .vobj fs, ks, top => by
      simp only [deepNormalise, wfB, Bool.and_eq_true]
      exact wfEntries_norm fs ks top [] rfl rfl

theorem wfItems_norm : ∀ (xs : List Value) (ks : Option (List String)),
    wfItemsB (normaliseItems xs ks) = true
  | [], _ => rfl
  | x :: rest, ks => by
      simp only [normaliseItems, wfItemsB, Bool.and_eq_true]
      exact ⟨wf_norm x ks false, wfItems_norm rest ks⟩

theorem wfEntries_norm : ∀ (fs : List (String × Value)) (ks : Option (List String))
    (top : Bool) (acc : List (String × Value)),
    keysNodupB acc = true → wfFieldsB acc = true →
    keysNodupB (normaliseEntries fs ks top acc) = true
      ∧ wfFieldsB (normaliseEntries fs ks top acc) = true
  | [], _, _, acc, hn, hw => by simpa [normaliseEntries] using ⟨hn, hw⟩
  | (k, v) :: rest, ks, top, acc, hn, hw => by
      simp only [normaliseEntries]
      split
      · exact wfEntries_norm rest ks top acc hn hw
      · split
        · exact wfEntries_norm rest ks top _
            (keysNodupB_objSet acc k _ hn)
            (wfFieldsB_objSet acc k _ hw (wf_norm v ks false))
        · exact wfEntries_norm rest ks top acc hn hw

end

mutual

theorem nf_norm : ∀ (v : Value) (ks : Option (List String)) (top : Bool),
    nfB (deepNormalise v ks top) = true
  | .vnull, _, _ => rfl
  | .vundef, _, _ => rfl
  | .vbool _, _, _ => rfl
  | .vnum _, _, _ => rfl
  | .vstr _, _, _ => rfl
  | .varr xs, ks, top => by
      simp only [deepNormalise]
      split
      · rename_i hlen
        simp only [nfB, Bool.and_eq_true]
        constructor
        · simp [List.isEmpty_eq_false, List.ne_nil_of_length_pos hlen]
        · rw [nfItemsB_iff]
          intro y hy
          have hmem := List.mem_of_mem_filter hy
          have hpred := List.of_mem_filter hy
          simp only [Bool.and_eq_true, Bool.not_eq_true'] at hpred
          exact ⟨(beq_false_iff _ _).mp hpred.1, nfItems_norm xs ks y hmem⟩
      · rfl
  | .vobj fs, ks, top => by
      simp only [deepNormalise, nfB]
      exact nfEntries_norm fs ks top [] rfl

theorem nfItems_norm : ∀ (xs : List Value) (ks : Option (List String)) (y : Value),
    y ∈ normaliseItems xs ks → nfB y = true
  | [], _, y, hy => absurd hy (by simp [normaliseItems])
  | x :: rest, ks, y, hy => by
      simp only [normaliseItems, List.mem_cons] at hy
      rcases hy with h1 | h2
      · exact h1 ▸ nf_norm x ks false
      · exact nfItems_norm rest ks y h2

theorem nfEntries_norm : ∀ (fs : List (String × Value)) (ks : Option (List String))
    (top : Bool) (acc : List (String × Value)),
    nfFieldsB acc = true → nfFieldsB (normaliseEntries fs ks top acc) = true
  | [], _, _, acc, hw => by simpa [normaliseEntries] using hw
  | (k, v) :: rest, ks, top, acc, hw => by
      simp only [normaliseEntries]
      split
      · exact nfEntries_norm rest ks top acc hw
      · split
        · rename_i hguard
          simp only [Bool.not_eq_true'] at hguard
          exact nfEntries_norm rest ks top _
            (nfFieldsB_objSet acc k _ hw ((beq_false_iff _ _).mp hguard)
              (nf_norm v ks false))
        · exact nfEntries_norm rest ks top acc hw

end

end Value

open Value in
/-- C10: every value returned by `deepNormalise` is in normal form: it is
`null`, a primitive, a non-empty array with no `null` element, or an
object with no `null` field value, recursively, and it is never
`undefined` (see the definition of `nfB`). -/
theorem deepNormalise_normal_form (v : Value) (ks : Option (List String)) (top : Bool) :
    nfB (deepNormalise v ks top) = true :=
  nf_norm v ks top

namespace Reconcile

open Value

theorem findSlashChanges_of_norm_eq (newBody existingBody : Value)
    (h : deepNormalise existingBody (some (keysOf (deepNormalise newBody none true))) true
        = deepNormalise newBody none true) :
    findSlashChanges newBody existingBody = .vnull := by
  simp only [findSlashChanges]
  rw [h]
  exact diff_refl _ (wf_norm newBody none true)

theorem loopStep_id (remotes : List RemoteCmd) (s : LoopState) (l : SlashCmd)
    (hm : ∃ r ∈ remotes, r.name = l.name)
    (he : ∀ r ∈ remotes, r.name = l.name → findSlashChanges l.body r.body = .vnull) :
    loopStep remotes s l = s := by
  obtain ⟨r, hr, hname⟩ := hm
  have hrmem : r ∈ remotes.filter (fun command => command.name = l.name) :=
    List.mem_filter.mpr ⟨hr, by simp [hname]⟩
  have hne : remotes.filter (fun command => command.name = l.name) ≠ [] :=
    List.ne_nil_of_mem hrmem
  have hlen : ¬ ((remotes.filter (fun command => command.name = l.name)).length = 0) := by
    simpa [List.length_eq_zero] using hne
  have hfm : (remotes.filter (fun command => command.name = l.name)).filterMap
      (fun existingCommand =>
        let differences := findSlashChanges l.body existingCommand.body
        if !(Value.beq differences .vnull) then
          some (existingCommand, l, differences)
        else none) = [] := by
    rw [List.filterMap_eq_nil_iff]
    intro e hemem
    have hremem := List.mem_of_mem_filter hemem
    have hename : e.name = l.name := by
      have := List.of_mem_filter hemem
      simpa using this
    have hdiff : findSlashChanges l.body e.body = .vnull := he e hremem hename
    simp [hdiff, beq_self]
  simp only [loopStep, if_neg hlen, hfm, List.append_nil]

theorem foldl_loopStep_id : ∀ (locals : List SlashCmd) (remotes : List RemoteCmd)
    (s : LoopState),
    (∀ l ∈ locals, ∃ r ∈ remotes, r.name = l.name) →
    (∀ l ∈ locals, ∀ r ∈ remotes, r.name = l.name →
        findSlashChanges l.body r.body = .vnull) →
    locals.foldl (loopStep remotes) s = s
  | [], _, _, _, _ => rfl
  | l :: rest, remotes, s, hm, he => by
      rw [List.foldl_cons,
        loopStep_id remotes s l (hm l (List.mem_cons_self _ _))
          (he l (List.mem_cons_self _ _))]
      exact foldl_loopStep_id rest remotes s
        (fun x hx => hm x (List.mem_cons_of_mem _ hx))
        (fun x hx => he x (List.mem_cons_of_mem _ hx))

end Reconcile

open Reconcile Value in
/-- C2: reconciliation minimality — when every locally built target has a
remote command of its name and every such matched remote, normalized under
the local side's key set, is field-for-field equal to the normalized local
target, the computed plan is empty: `toAdd = toUpdate = toDelete = []`.
This is also the state a second `ready` run sees when the only remote
change since the first run is the application of the first run's plan. -/
theorem reconcile_minimal (locals : List SlashCmd) (remotes : List RemoteCmd)
    (hmatch : ∀ l ∈ locals, ∃ r ∈ remotes, r.name = l.name)
    (hexact : ∀ l ∈ locals, ∀ r ∈ remotes, r.name = l.name →
        deepNormalise r.body (some (keysOf (deepNormalise l.body none true))) true
          = deepNormalise l.body none true) :
    reconcile locals remotes = ⟨[], [], []⟩ := by
  have hfold : locals.foldl (loopStep remotes) ⟨[], [], []⟩ = ⟨[], [], []⟩ :=
    foldl_loopStep_id locals remotes ⟨[], [], []⟩ hmatch
      (fun l hl r hr hname =>
        findSlashChanges_of_norm_eq l.body r.body (hexact l hl r hr hname))
  simp only [reconcile, hfold]

open Reconcile Value in
/-- C2 witness: one local target field-for-field equal to one remote
command of the same name yields the empty plan. -/
theorem reconcile_minimal_witness :
    reconcile [⟨"misc", .vobj [("name", .vstr "misc")]⟩]
        [⟨"misc", .vobj [("name", .vstr "misc")]⟩] = ⟨[], [], []⟩ := by
  refine reconcile_minimal _ _ ?_ ?_
  · intro l hl
    rw [List.mem_singleton] at hl
    subst hl
    exact ⟨⟨"misc", .vobj [("name", .vstr "misc")]⟩, List.mem_singleton.mpr rfl, rfl⟩
  · intro l hl r hr hname
    rw [List.mem_singleton] at hl
    rw [List.mem_singleton] at hr
    subst hl; subst hr
    rfl

open Reconcile Value in
/-- C1: contrary to the claim, no fetched remote command is ever placed in
the deletion set — `commandsToDelete` is empty for every input, because
the code discards every `Collection.concat` result — so a remote command
with no matching local target (here `orphan`, with no local targets at
all) yields the plan `⟨[], [], []⟩` instead of being deleted, and the
claimed partition of remote names over toUpdate/toDelete fails. -/
theorem reconcile_toDelete_always_empty :
    (∀ (locals : List SlashCmd) (remotes : List RemoteCmd),
        (reconcile locals remotes).toDelete = [])
  ∧ reconcile [] [⟨"orphan", .vobj [("name", .vstr "orphan")]⟩] = ⟨[], [], []⟩ :=
  ⟨fun _ _ => rfl, rfl⟩

open Dispatch in
/-- C3: contrary to the claim, the message `!help` under configured prefix
`>` is dispatched to `help` (the prefix regex of commandCreate.ts line 44
is tested against the resolved prefix itself, which always matches, and
the command name is obtained by unconditionally stripping
`prefix.length` characters from the first token); `>help` dispatches
`help` as the claim states. -/
theorem dispatchMessage_prefix_gate_not_enforced :
    dispatchMessage ⟨['1'], [['h', 'e', 'l', 'p']], []⟩ ['>']
        ['!', 'h', 'e', 'l', 'p'] = some ['h', 'e', 'l', 'p']
  ∧ dispatchMessage ⟨['1'], [['h', 'e', 'l', 'p']], []⟩ ['>']
        ['>', 'h', 'e', 'l', 'p'] = some ['h', 'e', 'l', 'p'] :=
  ⟨rfl, rfl⟩

open Dispatch in
/-- C9: any failure thrown out of the guarded extract-and-execute block is
caught by the router — the run result is always an `Except.ok` (never a
propagated `Except.error`), and when the block fails with `e` the outcome
is exactly: `e` logged and the invoker replied to with the generic
`errorEmbed "Unexpected Error" prefix`. -/
theorem routerRun_catches_execute_failure :
    (∀ (extract : Except JsError Value) (execute : Value → Except JsError Unit)
        (pfx : String), ∃ o, routerRun extract execute pfx = .ok o)
  ∧ (∀ (e : JsError) (extract : Except JsError Value)
        (execute : Value → Except JsError Unit) (pfx : String),
        tryBlock extract execute = .error e →
        routerRun extract execute pfx
          = .ok (.errorHandled e (errorEmbed "Unexpected Error" pfx))) := by
  constructor
  · intro extract execute pfx
    cases h : tryBlock extract execute with
    | ok u => exact ⟨.executed, by simp [routerRun, h]⟩
    | error e => exact ⟨.errorHandled e (errorEmbed "Unexpected Error" pfx),
        by simp [routerRun, h]⟩
  · intro e extract execute pfx h
    simp [routerRun, h]

open Dispatch in
/-- C9 witness: a command whose execute throws `boom` is caught and
answered with the generic error embed. -/
theorem routerRun_catches_execute_failure_witness :
    routerRun (Except.ok Value.vnull) (fun _ => Except.error ⟨"boom"⟩) ">"
      = .ok (.errorHandled ⟨"boom"⟩ (errorEmbed "Unexpected Error" ">")) :=
  routerRun_catches_execute_failure.2 ⟨"boom"⟩ (Except.ok Value.vnull)
    (fun _ => Except.error ⟨"boom"⟩) ">" rfl

namespace ErrorLog

open Dispatch (JStr)

theorem splitMessages_cons (err : JStr) (h : err ≠ []) :
    splitMessages err
      = err.take SIZE_RESTRICTION :: splitMessages (err.drop SIZE_RESTRICTION) := by
  have hlen : 0 < err.length := List.length_pos.mpr h
  have hcount : arrayLength err.length
      = arrayLength (err.drop SIZE_RESTRICTION).length + 1 := by
    simp only [arrayLength, SIZE_RESTRICTION, List.length_drop]
    omega
  rw [splitMessages, hcount, List.range_succ_eq_map]
  rw [List.map_cons, List.map_map]
  have hhead : (err.drop (0 * SIZE_RESTRICTION)).take SIZE_RESTRICTION
      = err.take SIZE_RESTRICTION := by
    simp
  have htail : ((fun i => (err.drop (i * SIZE_RESTRICTION)).take SIZE_RESTRICTION)
        ∘ Nat.succ)
      = (fun i => ((err.drop SIZE_RESTRICTION).drop (i * SIZE_RESTRICTION)).take
          SIZE_RESTRICTION) := by
    funext i
    simp only [Function.comp_apply, List.drop_drop]
    have harith : Nat.succ i * SIZE_RESTRICTION
        = i * SIZE_RESTRICTION + SIZE_RESTRICTION := by
      simp [Nat.succ_mul]
    rw [harith, Nat.add_comm]
  rw [hhead, htail]
  rfl

theorem splitMessages_flatten (err : JStr) : (splitMessages err).flatten = err := by
  by_cases h : err = []
  · subst h; rfl
  · rw [splitMessages_cons err h, List.flatten_cons,
      splitMessages_flatten (err.drop SIZE_RESTRICTION), List.take_append_drop]
termination_by err.length
decreasing_by
  have hlen : 0 < err.length := List.length_pos.mpr h
  simp only [List.length_drop, SIZE_RESTRICTION]
  omega

theorem splitMessages_le (err : JStr) :
    ∀ m ∈ splitMessages err, m.length ≤ SIZE_RESTRICTION := by
  intro m hm
  obtain ⟨i, _, rfl⟩ := List.mem_map.mp hm
  exact List.length_take_le _ _

end ErrorLog

open ErrorLog in
/-- C8: `logError` splits the serialized error text into consecutive
chunks each of length at most `SIZE_RESTRICTION` (1990) whose
concatenation is the full text; when the log channel is available it posts
exactly one (fenced) message per chunk, and when it is not, the error goes
to the console instead. -/
theorem logError_chunks_and_falls_back (err : Dispatch.JStr) :
    ((splitMessages err).all fun m => m.length ≤ SIZE_RESTRICTION) = true
  ∧ (splitMessages err).flatten = err
  ∧ logError true err = .sent ((splitMessages err).map fencedMessage)
  ∧ logError false err = .console err := by
  refine ⟨?_, splitMessages_flatten err, rfl, rfl⟩
  rw [List.all_eq_true]
  intro m hm
  simpa using splitMessages_le err m hm
